import Mathlib

/-!
Verification of the user-profile cache and denormalization-repair subsystem of
the SocialNetwork repository.

The embedding follows the TypeScript source:
  * `src/src/lib/cache/userCache.ts` — `UserProfileCache` (`getUser`, `setUser`,
    `invalidateUser`, `cleanupCache`, `getUsers`, `batchGetUsers`,
    `updateUserContentReferences`);
  * the firebaseUtils module (embedded in `src/src/lib/firebase/FIRESTORE_INDEXES.md`)
    — `getUserProfile`, `updateUserProfile`, `enrichPostsWithUserData`;
  * the data model of `src/src/lib/types.ts` (embedded at the end of
    `src/src/lib/cache/README.md`).

A JavaScript `Map` is modelled as an association list with JS `Map` semantics:
`set` replaces the (unique) existing entry in place or appends a new one,
`get` returns the first (unique) match, `delete` removes the entry.
`Date.now()` is passed explicitly as a `Nat` (milliseconds).  The Firestore
collaborator is modelled as: a `users` collection (a `List User`, document id
equal to the `uid` field, as `createUserProfile` guarantees) and a `posts`
collection (a `List Post`).  Batched writes are recorded as explicit
`WriteOp` lists so that commit sizes and commit contents are observable.
-/

set_option maxRecDepth 10000

namespace SocialNetwork

/-- Profile record (`User` in `types.ts`).  Optional `bio` is modelled as an
`Option`, `Date` fields as milliseconds since the epoch. -/
structure User where
  uid : String
  email : String
  displayName : String
  photoURL : String
  bio : Option String
  createdAt : Nat
  updatedAt : Nat
deriving Repr, DecidableEq

/-- Comment record (`Comment` in `types.ts`). -/
structure Comment where
  id : String
  postId : String
  authorId : String
  authorName : String
  authorPhotoURL : String
  content : String
  createdAt : Nat
deriving Repr, DecidableEq

/-- Post record (`Post` in `types.ts`).  The raw Firestore document may lack
the `comments` array (`updateUserContentReferences` guards with
`postData.comments && Array.isArray(postData.comments)`), so `comments` is an
`Option (List Comment)`. -/
structure Post where
  id : String
  authorId : String
  authorName : String
  authorPhotoURL : String
  content : String
  imageURL : Option String
  likes : List String
  comments : Option (List Comment)
  createdAt : Nat
  updatedAt : Nat
deriving Repr, DecidableEq

/-- A cache entry: `{ user, timestamp }` as stored in the private `cache` map. -/
structure CacheEntry where
  user : User
  timestamp : Nat
deriving Repr, DecidableEq

/-- The in-memory cache map `Map<string, { user, timestamp }>`. -/
abbrev Cache := List (String × CacheEntry)

/-- A `Map<string, User>` as returned by `getUsers` / `batchGetUsers`. -/
abbrev UserMap := List (String × User)

/-- JS `Map.get`: the value of the (unique) entry for `k`, if present. -/
def mGet {α : Type} : List (String × α) → String → Option α
  | [], _ => none
  | p :: r, k => if p.1 = k then some p.2 else mGet r k

/-- JS `Map.set`: replace the existing entry for `k` in place, or append. -/
def mSet {α : Type} : List (String × α) → String → α → List (String × α)
  | [], k, v => [(k, v)]
  | p :: r, k, v => if p.1 = k then (k, v) :: r else p :: mSet r k v

/-- JS `Map.delete k`: remove the entry for `k` (all entries with key `k`;
identical to JS `Map` under its unique-key invariant). -/
def mDelete {α : Type} (l : List (String × α)) (k : String) : List (String × α) :=
  l.filter (fun p => p.1 ≠ k)

/-- `CACHE_TTL = 5 * 60 * 1000` (five minutes, in milliseconds). -/
def CACHE_TTL : Nat := 5 * 60 * 1000

/-- `MAX_CACHE_SIZE = 1000`. -/
def MAX_CACHE_SIZE : Nat := 1000

/-- `cleanupCache`: delete every entry with `now - cached.timestamp >= CACHE_TTL`. -/
def cleanupCache (now : Nat) (c : Cache) : Cache :=
  c.filter (fun p => now - p.2.timestamp < CACHE_TTL)

/-- `setUser`: run `cleanupCache` when `cache.size >= MAX_CACHE_SIZE`, then
insert `{ user, timestamp: Date.now() }`. -/
def setUser (now : Nat) (uid : String) (user : User) (c : Cache) : Cache :=
  let c := if MAX_CACHE_SIZE ≤ c.length then cleanupCache now c else c
  mSet c uid ⟨user, now⟩

/-- `invalidateUser`: `cache.delete(uid)`. -/
def invalidateUser (uid : String) (c : Cache) : Cache :=
  mDelete c uid

/-- `getUserProfile` (firebaseUtils): Firestore point lookup of document
`users/uid`; document ids equal the `uid` field (`createUserProfile`). -/
def getUserProfile (users : List User) (uid : String) : Option User :=
  users.find? (fun u => u.uid = uid)

/-- Result of a single `getUser` call: the returned profile, the cache map
afterwards, and how many store round-trips were made. -/
structure GetUserResult where
  user : Option User
  cache : Cache
  storeCalls : Nat
deriving Repr, DecidableEq

/-- The database-fetch path of `getUser` (after the cache check fails). -/
def getUserFetch (now : Nat) (users : List User) (c : Cache) (uid : String) :
    GetUserResult :=
  match getUserProfile users uid with
  | some u => ⟨some u, setUser now uid u c, 1⟩
  | none => ⟨none, c, 1⟩

/-- `getUser`: serve from the cache when the entry is younger than
`CACHE_TTL`, otherwise fetch from the store and cache a found result. -/
def getUser (now : Nat) (users : List User) (c : Cache) (uid : String) :
    GetUserResult :=
  match mGet c uid with
  | some cached =>
    if now - cached.timestamp < CACHE_TTL then ⟨some cached.user, c, 0⟩
    else getUserFetch now users c uid
  | none => getUserFetch now users c uid

/-- The freshness view of the cache used by `getUser` / `getUsers`: the cached
profile when an entry exists and is younger than the TTL, otherwise `none`. -/
def cacheFresh (now : Nat) (c : Cache) (id : String) : Option User :=
  match mGet c id with
  | some e => if now - e.timestamp < CACHE_TTL then some e.user else none
  | none => none

/-- The `for (let i = 0; i < uids.length; i += 10)` slicing loop of
`batchGetUsers`: Firebase `in` queries are limited to 10 identifiers. -/
def chunksOf10 (l : List String) : List (List String) :=
  if h : l = [] then []
  else l.take 10 :: chunksOf10 (l.drop 10)
termination_by l.length
decreasing_by
  simp only [List.length_drop]
  exact Nat.sub_lt (List.length_pos.mpr h) (by decide)

/-- One Firestore query `where("uid", "in", batch)` over the `users`
collection: the documents whose `uid` field is in the identifier list. -/
def runInQuery (users : List User) (batch : List String) : List User :=
  users.filter (fun u => batch.contains u.uid)

/-- The `querySnapshot.forEach(doc => result.set(userData.uid, userData))`
body applied to one query's results. -/
def inQueryFold (users : List User) (batch : List String) (r : UserMap) : UserMap :=
  (runInQuery users batch).foldl (fun r u => mSet r u.uid u) r

/-- `batchGetUsers`: chunk the identifiers by 10, run one `in` query per
chunk, and collect every returned document into a `Map` keyed by `uid`. -/
def batchGetUsers (users : List User) (uids : List String) : UserMap :=
  (chunksOf10 uids).foldl (fun r batch => inQueryFold users batch r) []

/-- The first loop of `getUsers`: serve cache-fresh ids into the result map
and push the rest onto `uncachedUids`, in request order. -/
def getUsersStep (now : Nat) (c : Cache) (acc : UserMap × List String)
    (uid : String) : UserMap × List String :=
  match mGet c uid with
  | some cached =>
    if now - cached.timestamp < CACHE_TTL then (mSet acc.1 uid cached.user, acc.2)
    else (acc.1, acc.2 ++ [uid])
  | none => (acc.1, acc.2 ++ [uid])

/-- The cache-check pass of `getUsers` over the whole request list. -/
def getUsersSplit (now : Nat) (c : Cache) (uids : List String) :
    UserMap × List String :=
  uids.foldl (getUsersStep now c) ([], [])

/-- Result of a `getUsers` call: the returned `Map` and the cache afterwards. -/
structure GetUsersResult where
  result : UserMap
  cache : Cache
deriving Repr, DecidableEq

/-- Folding every fetched profile into the cache via `setUser` (the
`for (const [uid, user] of users.entries())` loop of `getUsers`). -/
def insertAll (now : Nat) (l : List (String × User)) (c : Cache) : Cache :=
  l.foldl (fun c kv => setUser now kv.1 kv.2 c) c

/-- `getUsers`: cache-fresh ids are served from the cache; the remainder is
fetched with `batchGetUsers`, merged into the result and written back into
the cache. -/
def getUsers (now : Nat) (users : List User) (c : Cache) (uids : List String) :
    GetUsersResult :=
  let split := getUsersSplit now c uids
  if split.2.isEmpty then ⟨split.1, c⟩
  else
    let fetched := batchGetUsers users split.2
    ⟨fetched.foldl (fun r kv => mSet r kv.1 kv.2) split.1,
     insertAll now fetched c⟩

/-- One staged Firestore batch operation of `updateUserContentReferences`:
either the author-field update of a post or the rewrite of its `comments`
array. -/
inductive WriteOp where
  | setAuthor (postId : String) (authorName authorPhotoURL : String) (updatedAt : Nat)
  | setComments (postId : String) (comments : List Comment)
deriving Repr, DecidableEq

/-- The mutable state of the repair loop: the (single, never re-created)
`writeBatch` object, the `batchOperations` counter, and the batches committed
so far (each commit snapshots the batch's current contents). -/
structure RepairTrace where
  batch : List WriteOp
  batchOperations : Nat
  commits : List (List WriteOp)
deriving Repr, DecidableEq

/-- `MAX_BATCH_SIZE = 500` (the Firestore batch limit named in the source). -/
def MAX_BATCH_SIZE : Nat := 500

/-- The body of the `for (const postDoc of postsSnapshot.docs)` loop: stage the
author-field update (counting it), stage the comments rewrite when the document
carries a `comments` array (not counting it), and commit when
`batchOperations >= MAX_BATCH_SIZE` (resetting only the counter — the code
never creates a fresh batch object). -/
def repairStep (uid newDisplayName newPhotoURL : String) (now : Nat)
    (st : RepairTrace) (post : Post) : RepairTrace :=
  let st : RepairTrace :=
    { st with
      batch := st.batch ++ [WriteOp.setAuthor post.id newDisplayName newPhotoURL now]
      batchOperations := st.batchOperations + 1 }
  let st : RepairTrace :=
    match post.comments with
    | some cs =>
      let updatedComments := cs.map (fun comment =>
        if comment.authorId = uid then
          { comment with authorName := newDisplayName, authorPhotoURL := newPhotoURL }
        else comment)
      { st with batch := st.batch ++ [WriteOp.setComments post.id updatedComments] }
    | none => st
  if MAX_BATCH_SIZE ≤ st.batchOperations then
    { st with commits := st.commits ++ [st.batch], batchOperations := 0 }
  else st

/-- The staging/commit trace of `updateUserContentReferences`: query the posts
whose `authorId` equals `uid`, run the loop, and commit the remainder when the
counter is positive. -/
def updateUserContentReferencesTrace (uid newDisplayName newPhotoURL : String)
    (now : Nat) (posts : List Post) : RepairTrace :=
  let matching := posts.filter (fun p => p.authorId = uid)
  let st := matching.foldl (repairStep uid newDisplayName newPhotoURL now) ⟨[], 0, []⟩
  if 0 < st.batchOperations then { st with commits := st.commits ++ [st.batch] }
  else st

/-- Effect of one committed batch operation on the `posts` collection. -/
def applyOp (posts : List Post) (op : WriteOp) : List Post :=
  match op with
  | .setAuthor pid name photo ts =>
    posts.map (fun p =>
      if p.id = pid then { p with authorName := name, authorPhotoURL := photo, updatedAt := ts }
      else p)
  | .setComments pid cs =>
    posts.map (fun p => if p.id = pid then { p with comments := some cs } else p)

/-- Apply a sequence of committed batches to the `posts` collection, stopping
at the first batch whose commit the store rejects (`commitOk` is the
collaborator's per-commit outcome).  Returns the error, if any, and the
collection reached. -/
def applyCommits (commitOk : Nat → Bool) : Nat → List Post → List (List WriteOp) →
    Option String × List Post
  | _, ps, [] => (none, ps)
  | i, ps, b :: rest =>
    if commitOk i then applyCommits commitOk (i + 1) (b.foldl applyOp ps) rest
    else (some "batch commit failed", ps)

/-- Outcome of one (detached) run of `updateUserContentReferences`: the error
it rejected with (if any), the posts collection and the cache afterwards. -/
structure RepairResult where
  err : Option String
  posts : List Post
  cache : Cache
deriving Repr, DecidableEq

/-- One full run of `updateUserContentReferences`: fail fast when the store
adapter is uninitialized (`if (!db) throw`), otherwise stage and commit the
batches; only a run in which every commit succeeded reaches the final
`invalidateUser(uid)` on line 183. -/
def updateUserContentReferences (dbInit : Bool) (commitOk : Nat → Bool)
    (uid newDisplayName newPhotoURL : String) (now : Nat)
    (posts : List Post) (c : Cache) : RepairResult :=
  if dbInit then
    let tr := updateUserContentReferencesTrace uid newDisplayName newPhotoURL now posts
    match applyCommits commitOk 0 posts tr.commits with
    | (none, ps) => ⟨none, ps, invalidateUser uid c⟩
    | (some e, ps) => ⟨some e, ps, c⟩
  else ⟨some "Firestore is not initialized", posts, c⟩

/-- The `Partial<User>` argument of `updateUserProfile`, restricted to the
fields the function reads; `none` models an absent property. -/
structure ProfileUpdateData where
  displayName : Option String
  photoURL : Option String
  bio : Option String
deriving Repr, DecidableEq

/-- JS truthiness of an optional string (`data.displayName || data.photoURL`):
an absent property and the empty string are falsy. -/
def truthy : Option String → Bool
  | some s => s ≠ ""
  | none => false

/-- Effect of `updateDoc(userRef, { ...data, updatedAt: new Date() })` on one
user document. -/
def applyProfileUpdate (d : ProfileUpdateData) (now : Nat) (u : User) : User :=
  { u with
    displayName := d.displayName.getD u.displayName
    photoURL := d.photoURL.getD u.photoURL
    bio := d.bio.orElse (fun _ => u.bio)
    updatedAt := now }

/-- The state shared by the profile-update path and the detached repair:
both Firestore collections, the cache, the console-error log, and a counter
of repair attempts (to express that a failed repair is not retried). -/
structure World where
  users : List User
  posts : List Post
  cache : Cache
  log : List String
  repairAttempts : Nat
deriving Repr, DecidableEq

/-- The state at the moment `updateUserProfile` resolves: its world, plus the
detached `updateUserContentReferences` call that was fired (if any) and has
not yet finished. -/
structure UpdateReturn where
  world : World
  pending : Option (String × String × String)
deriving Repr, DecidableEq

/-- `updateUserProfile` up to and including its return: write the profile
document, read it back, fire the repair without awaiting it (it suspends on
its first store query before touching any shared state), and invalidate the
cache entry for `uid`. -/
def updateUserProfileReturn (now : Nat) (uid : String) (d : ProfileUpdateData)
    (w : World) : UpdateReturn :=
  let users2 := w.users.map (fun u => if u.uid = uid then applyProfileUpdate d now u else u)
  let pending :=
    if truthy d.displayName || truthy d.photoURL then
      match getUserProfile users2 uid with
      | some updatedUser => some (uid, updatedUser.displayName, updatedUser.photoURL)
      | none => none
    else none
  ⟨⟨users2, w.posts, invalidateUser uid w.cache, w.log, w.repairAttempts⟩, pending⟩

/-- The `console.error` line of the `.catch` handler attached to the detached
repair call in `updateUserProfile`. -/
def repairErrorLog (e : String) : String :=
  "Error updating user content references: " ++ e

/-- Run the detached repair to completion after `updateUserProfile` has
returned: a rejection is caught by the `.catch` boundary, logged, and not
retried; it never reaches `updateUserProfile`'s caller. -/
def runPendingRepair (dbInit : Bool) (commitOk : Nat → Bool) (now : Nat)
    (r : UpdateReturn) : World :=
  match r.pending with
  | none => r.world
  | some (uid, name, photo) =>
    let w := r.world
    let res := updateUserContentReferences dbInit commitOk uid name photo now w.posts w.cache
    match res.err with
    | some e =>
      { w with posts := res.posts, log := w.log ++ [repairErrorLog e],
               repairAttempts := w.repairAttempts + 1 }
    | none =>
      { w with posts := res.posts, cache := res.cache,
               repairAttempts := w.repairAttempts + 1 }

/-- A profile update together with its detached repair, run to completion. -/
def updateUserProfileFull (dbInit : Bool) (commitOk : Nat → Bool) (now : Nat)
    (uid : String) (d : ProfileUpdateData) (w : World) : World :=
  runPendingRepair dbInit commitOk now (updateUserProfileReturn now uid d w)

/-- JS `Set` insertion (`authorIds.add`): deduplicating, order-preserving. -/
def setAdd (s : List String) (x : String) : List String :=
  if x ∈ s then s else s ++ [x]

/-- `enrichPostsWithUserData`'s id-collection pass: every post author id and
every nested comment author id, deduplicated in insertion order. -/
def collectAuthorIds (posts : List Post) : List String :=
  posts.foldl (fun s post =>
    (post.comments.getD []).foldl (fun s comment => setAdd s comment.authorId)
      (setAdd s post.authorId)) []

/-- The per-comment body of `enrichPostsWithUserData`'s comment map: overwrite
the denormalized author fields when the author resolved, else return the
comment unchanged. -/
def enrichComment (m : UserMap) (comment : Comment) : Comment :=
  match mGet m comment.authorId with
  | some u => { comment with authorName := u.displayName, authorPhotoURL := u.photoURL }
  | none => comment

/-- The per-post enrichment of `enrichPostsWithUserData`: overwrite the
denormalized author fields from the resolved map where a resolution exists;
comments are rewritten the same way when the post carries a comments array. -/
def enrichPost (m : UserMap) (post : Post) : Post :=
  let enriched :=
    match mGet m post.authorId with
    | some u => { post with authorName := u.displayName, authorPhotoURL := u.photoURL }
    | none => post
  match enriched.comments with
  | some cs => { enriched with comments := some (cs.map (enrichComment m)) }
  | none => enriched

/-- `enrichPostsWithUserData`: resolve all author ids through the cache in one
`getCachedUsers` call and return the rewritten posts plus the cache that call
left behind.  The function performs no store writes. -/
def enrichPostsWithUserData (now : Nat) (users : List User) (c : Cache)
    (posts : List Post) : List Post × Cache :=
  let resolved := getUsers now users c (collectAuthorIds posts)
  (posts.map (enrichPost resolved.result), resolved.cache)

/-! ### Association-list map lemmas -/

theorem mGet_nil {α : Type} (k : String) : mGet ([] : List (String × α)) k = none := rfl

theorem mGet_cons {α : Type} (p : String × α) (r : List (String × α)) (k : String) :
    mGet (p :: r) k = if p.1 = k then some p.2 else mGet r k := rfl

theorem mGet_mSet {α : Type} (r : List (String × α)) (k k' : String) (v : α) :
    mGet (mSet r k v) k' = if k' = k then some v else mGet r k' := by
  induction r with
  | nil =>
    by_cases h : k' = k
    · subst h; simp [mSet, mGet]
    · have h2 : ¬ k = k' := fun hk => h hk.symm
      simp [mSet, mGet, h, h2]
  | cons p r ih =>
    by_cases hp : p.1 = k
    · rw [mSet, if_pos hp]
      by_cases h : k' = k
      · subst h; simp [mGet]
      · have h2 : ¬ k = k' := fun hk => h hk.symm
        have hp2 : ¬ p.1 = k' := fun hk => h2 (hp.symm.trans hk)
        simp [mGet, h, h2, hp2]
    · rw [mSet, if_neg hp]
      by_cases hq : p.1 = k'
      · have h : ¬ k' = k := fun hk => hp (hq.trans hk)
        simp [mGet, hq, h]
      · simp [mGet, hq, ih]

theorem mem_of_mGet_eq_some {α : Type} {r : List (String × α)} {k : String} {v : α}
    (h : mGet r k = some v) : (k, v) ∈ r := by
  induction r with
  | nil => simp [mGet] at h
  | cons p r ih =>
    rw [mGet_cons] at h
    by_cases hp : p.1 = k
    · rw [if_pos hp] at h
      have hkv : (k, v) = p := by
        obtain ⟨a, b⟩ := p
        obtain rfl : b = v := Option.some.inj h
        obtain rfl : a = k := hp
        rfl
      rw [hkv]
      exact List.mem_cons_self _ _
    · rw [if_neg hp] at h
      exact List.mem_cons_of_mem _ (ih h)

theorem mGet_isSome_of_mem {α : Type} {r : List (String × α)} {k : String} {v : α}
    (h : (k, v) ∈ r) : (mGet r k).isSome := by
  induction r with
  | nil => simp at h
  | cons p r ih =>
    rw [mGet_cons]
    rcases List.mem_cons.mp h with h | h
    · simp [← h]
    · by_cases hp : p.1 = k <;> simp [hp, ih h]

theorem mem_mSet {α : Type} {q : String × α} {r : List (String × α)} {k : String} {v : α}
    (h : q ∈ mSet r k v) : q = (k, v) ∨ q ∈ r := by
  induction r with
  | nil => simpa [mSet] using h
  | cons p r ih =>
    by_cases hp : p.1 = k
    · rw [mSet, if_pos hp] at h
      rcases List.mem_cons.mp h with h | h
      · exact Or.inl h
      · exact Or.inr (List.mem_cons_of_mem _ h)
    · rw [mSet, if_neg hp] at h
      rcases List.mem_cons.mp h with h | h
      · exact Or.inr (h ▸ List.mem_cons_self _ _)
      · rcases ih h with h | h
        · exact Or.inl h
        · exact Or.inr (List.mem_cons_of_mem _ h)

theorem keys_mSet_subset {α : Type} {x : String} {r : List (String × α)} {k : String} {v : α}
    (h : x ∈ (mSet r k v).map Prod.fst) : x = k ∨ x ∈ r.map Prod.fst := by
  rcases List.mem_map.mp h with ⟨q, hq, rfl⟩
  rcases mem_mSet hq with h | h
  · exact Or.inl (by rw [h])
  · exact Or.inr (List.mem_map_of_mem _ h)

theorem keys_mSet_nodup {α : Type} {r : List (String × α)} (k : String) (v : α)
    (h : (r.map Prod.fst).Nodup) : ((mSet r k v).map Prod.fst).Nodup := by
  induction r with
  | nil => simp [mSet]
  | cons p r ih =>
    rw [List.map_cons, List.nodup_cons] at h
    by_cases hp : p.1 = k
    · rw [mSet, if_pos hp]
      rw [List.map_cons, List.nodup_cons]
      exact ⟨by simpa [hp] using h.1, h.2⟩
    · rw [mSet, if_neg hp, List.map_cons, List.nodup_cons]
      refine ⟨fun hmem => ?_, ih h.2⟩
      rcases keys_mSet_subset hmem with h1 | h1
      · exact hp h1
      · exact h.1 h1

theorem mSet_eq_append {α : Type} {r : List (String × α)} {k : String} (v : α)
    (h : mGet r k = none) : mSet r k v = r ++ [(k, v)] := by
  induction r with
  | nil => rfl
  | cons p r ih =>
    rw [mGet_cons] at h
    by_cases hp : p.1 = k
    · rw [if_pos hp] at h; cases h
    · rw [if_neg hp] at h
      rw [mSet, if_neg hp, ih h, List.cons_append]

theorem mGet_append {α : Type} (a b : List (String × α)) (k : String) :
    mGet (a ++ b) k = (mGet a k).orElse (fun _ => mGet b k) := by
  induction a with
  | nil => simp [mGet]
  | cons p a ih =>
    by_cases hp : p.1 = k <;> simp [mGet_cons, hp, ih]

theorem mGet_mDelete_self {α : Type} (r : List (String × α)) (k : String) :
    mGet (mDelete r k) k = none := by
  induction r with
  | nil => rfl
  | cons p r ih =>
    by_cases hp : p.1 = k
    · simpa [mDelete, hp] using ih
    · simpa [mDelete, List.filter_cons, hp, mGet_cons] using ih

theorem mGet_of_nodup_mem {α : Type} {r : List (String × α)} {k : String} {v : α}
    (hn : (r.map Prod.fst).Nodup) (h : (k, v) ∈ r) : mGet r k = some v := by
  induction r with
  | nil => simp at h
  | cons p r ih =>
    rw [List.map_cons, List.nodup_cons] at hn
    rcases List.mem_cons.mp h with h | h
    · rw [← h, mGet_cons, if_pos rfl]
    · rw [mGet_cons]
      by_cases hp : p.1 = k
      · exact absurd (hp ▸ List.mem_map_of_mem Prod.fst h) hn.1
      · rw [if_neg hp]
        exact ih hn.2 h

/-! ### Cleanup and setUser lemmas -/

theorem mGet_cleanup_of_fresh {now : Nat} {c : Cache} {k : String} {e : CacheEntry}
    (h : mGet c k = some e) (hfresh : now - e.timestamp < CACHE_TTL) :
    mGet (cleanupCache now c) k = some e := by
  induction c with
  | nil => simp [mGet] at h
  | cons p c ih =>
    rw [mGet_cons] at h
    by_cases hp : p.1 = k
    · rw [if_pos hp] at h
      obtain rfl : p.2 = e := Option.some.inj h
      rw [cleanupCache, List.filter_cons, if_pos (by simpa using hfresh)]
      rw [mGet_cons, if_pos hp]
    · rw [if_neg hp] at h
      rw [cleanupCache, List.filter_cons]
      by_cases hkeep : now - p.2.timestamp < CACHE_TTL
      · rw [if_pos (by simpa using hkeep), mGet_cons, if_neg hp]
        exact ih h
      · rw [if_neg (by simpa using hkeep)]
        exact ih h

theorem mGet_cleanup_of_none {now : Nat} {c : Cache} {k : String}
    (h : mGet c k = none) : mGet (cleanupCache now c) k = none := by
  induction c with
  | nil => rfl
  | cons p c ih =>
    rw [mGet_cons] at h
    by_cases hp : p.1 = k
    · rw [if_pos hp] at h; cases h
    · rw [if_neg hp] at h
      rw [cleanupCache, List.filter_cons]
      by_cases hkeep : now - p.2.timestamp < CACHE_TTL
      · rw [if_pos (by simpa using hkeep), mGet_cons, if_neg hp]
        exact ih h
      · rw [if_neg (by simpa using hkeep)]
        exact ih h

theorem cleanup_eq_self {now : Nat} {c : Cache}
    (h : ∀ p ∈ c, now - p.2.timestamp < CACHE_TTL) : cleanupCache now c = c :=
  List.filter_eq_self.mpr (fun p hp => by simpa using h p hp)

theorem mem_cleanup {now : Nat} {c : Cache} {q : String × CacheEntry}
    (h : q ∈ cleanupCache now c) : q ∈ c :=
  List.mem_of_mem_filter h

theorem mGet_setUser_self (now : Nat) (k : String) (u : User) (c : Cache) :
    mGet (setUser now k u c) k = some ⟨u, now⟩ := by
  rw [setUser, mGet_mSet, if_pos rfl]

theorem mGet_setUser_of_fresh {now : Nat} {k' : String} {c : Cache} {e : CacheEntry}
    (k : String) (u : User) (hne : k' ≠ k) (h : mGet c k' = some e)
    (hfresh : now - e.timestamp < CACHE_TTL) :
    mGet (setUser now k u c) k' = some e := by
  rw [setUser, mGet_mSet, if_neg hne]
  by_cases hsize : MAX_CACHE_SIZE ≤ c.length
  · simpa [hsize] using mGet_cleanup_of_fresh h hfresh
  · simpa [hsize] using h

theorem mGet_setUser_of_none {now : Nat} {k' : String} {c : Cache}
    (k : String) (u : User) (hne : k' ≠ k) (h : mGet c k' = none) :
    mGet (setUser now k u c) k' = none := by
  rw [setUser, mGet_mSet, if_neg hne]
  by_cases hsize : MAX_CACHE_SIZE ≤ c.length
  · have hclean : mGet (cleanupCache now c) k' = none := mGet_cleanup_of_none h
    simpa [hsize] using hclean
  · simpa [hsize] using h

theorem mem_setUser {now : Nat} {k : String} {u : User} {c : Cache}
    {q : String × CacheEntry} (h : q ∈ setUser now k u c) :
    q = (k, ⟨u, now⟩) ∨ q ∈ c := by
  rw [setUser] at h
  rcases mem_mSet h with h | h
  · exact Or.inl h
  · by_cases hsize : MAX_CACHE_SIZE ≤ c.length
    · rw [if_pos hsize] at h
      exact Or.inr (mem_cleanup h)
    · rw [if_neg hsize] at h
      exact Or.inr h

theorem setUser_eq_append {now : Nat} {k : String} {c : Cache} (u : User)
    (hfresh : ∀ p ∈ c, now - p.2.timestamp < CACHE_TTL) (habs : mGet c k = none) :
    setUser now k u c = c ++ [(k, ⟨u, now⟩)] := by
  rw [setUser]
  by_cases hsize : MAX_CACHE_SIZE ≤ c.length
  · rw [if_pos hsize, cleanup_eq_self hfresh]
    exact mSet_eq_append _ habs
  · rw [if_neg hsize]
    exact mSet_eq_append _ habs

theorem ttl_pos : 0 < CACHE_TTL := by decide

/-- Structural form of `insertAll` churn: inserting distinct, absent keys into
an all-fresh cache appends them, one entry each, evicting nothing. -/
theorem insertAll_eq_append {now : Nat} {c : Cache} {l : List (String × User)}
    (hfresh : ∀ p ∈ c, now - p.2.timestamp < CACHE_TTL)
    (hnodup : (l.map Prod.fst).Nodup)
    (hnew : ∀ kv ∈ l, mGet c kv.1 = none) :
    insertAll now l c = c ++ l.map (fun kv => (kv.1, ⟨kv.2, now⟩)) := by
  induction l generalizing c with
  | nil => simp [insertAll]
  | cons kv l ih =>
    rw [List.map_cons, List.nodup_cons] at hnodup
    have hstep : setUser now kv.1 kv.2 c = c ++ [(kv.1, ⟨kv.2, now⟩)] :=
      setUser_eq_append _ hfresh (hnew kv (List.mem_cons_self _ _))
    have hfresh2 : ∀ p ∈ c ++ [(kv.1, ⟨kv.2, now⟩)], now - p.2.timestamp < CACHE_TTL := by
      intro p hp
      rcases List.mem_append.mp hp with hp | hp
      · exact hfresh p hp
      · rcases List.mem_singleton.mp hp with rfl
        simpa using ttl_pos
    have hnew2 : ∀ q ∈ l, mGet (c ++ [(kv.1, ⟨kv.2, now⟩)]) q.1 = none := by
      intro q hq
      rw [mGet_append, hnew q (List.mem_cons_of_mem _ hq)]
      have : ¬ kv.1 = q.1 := fun hk => hnodup.1 (hk ▸ List.mem_map_of_mem Prod.fst hq)
      simp [mGet, this]
    have := ih hfresh2 hnodup.2 hnew2
    rw [insertAll, List.foldl_cons, hstep]
    rw [insertAll] at this
    rw [this, List.map_cons, List.append_assoc, List.singleton_append]

/-! ### Chunked batch-lookup lemmas -/

theorem chunksOf10_nil : chunksOf10 [] = [] := by
  rw [chunksOf10]
  rfl

theorem chunksOf10_of_ne {l : List String} (h : l ≠ []) :
    chunksOf10 l = l.take 10 :: chunksOf10 (l.drop 10) := by
  rw [chunksOf10]
  simp [h]

theorem flatten_chunksOf10_aux : ∀ (n : Nat) (l : List String), l.length ≤ n →
    (chunksOf10 l).flatten = l := by
  intro n
  induction n with
  | zero =>
    intro l hl
    rw [List.length_eq_zero.mp (Nat.le_zero.mp hl), chunksOf10_nil]
    rfl
  | succ n ih =>
    intro l hl
    by_cases h : l = []
    · rw [h, chunksOf10_nil]; rfl
    · rw [chunksOf10_of_ne h, List.flatten_cons]
      have hrec : (l.drop 10).length ≤ n := by
        rw [List.length_drop]
        have hpos : 0 < l.length := List.length_pos.mpr h
        omega
      rw [ih _ hrec, List.take_append_drop]

theorem flatten_chunksOf10 (l : List String) : (chunksOf10 l).flatten = l :=
  flatten_chunksOf10_aux l.length l le_rfl

theorem getUserProfile_isSome_of {users : List User} {u : User} {id : String}
    (hu : u ∈ users) (hid : u.uid = id) : (getUserProfile users id).isSome := by
  rw [getUserProfile, List.find?_isSome]
  exact ⟨u, hu, by simp [hid]⟩

theorem getUserProfile_eq_some_of_mem {users : List User} {u : User} {id : String}
    (hn : (users.map User.uid).Nodup) (hu : u ∈ users) (hid : u.uid = id) :
    getUserProfile users id = some u := by
  obtain ⟨w, hw⟩ := Option.isSome_iff_exists.mp (getUserProfile_isSome_of hu hid)
  rw [hw]
  have hwmem : w ∈ users := List.mem_of_find?_eq_some hw
  have hwid : w.uid = id := by simpa using List.find?_some hw
  have heq : w = u :=
    List.inj_on_of_nodup_map hn hwmem hu (by rw [hwid, hid])
  rw [heq]

theorem mGet_foldl_setByUid {us : List User} (r : UserMap) (id : String)
    (hn : (us.map User.uid).Nodup) :
    mGet (us.foldl (fun r u => mSet r u.uid u) r) id =
      match us.find? (fun u => u.uid = id) with
      | some u => some u
      | none => mGet r id := by
  induction us generalizing r with
  | nil => simp
  | cons u us ih =>
    rw [List.map_cons, List.nodup_cons] at hn
    rw [List.foldl_cons, ih _ hn.2]
    by_cases hu : u.uid = id
    · have hfind : us.find? (fun w => w.uid = id) = none := by
        rw [List.find?_eq_none]
        intro w hw hwid
        exact hn.1 (hu ▸ (by simpa using hwid : w.uid = id) ▸ List.mem_map_of_mem User.uid hw)
      simp [List.find?_cons, hu, hfind]
      rw [mGet_mSet, if_pos rfl]
    · have hne : ¬ id = u.uid := fun hk => hu hk.symm
      cases hfind : us.find? (fun w => w.uid = id) with
      | some w => simp [List.find?_cons, hu, hfind]
      | none => simp [List.find?_cons, hu, hfind, mGet_mSet, hne]

theorem keys_foldl_setByUid_nodup {us : List User} {r : UserMap}
    (hn : (r.map Prod.fst).Nodup) :
    (((us.foldl (fun r u => mSet r u.uid u) r)).map Prod.fst).Nodup := by
  induction us generalizing r with
  | nil => exact hn
  | cons u us ih => exact ih (keys_mSet_nodup _ _ hn)

theorem mem_foldl_setByUid {us : List User} {r : UserMap} {q : String × User}
    (h : q ∈ us.foldl (fun r u => mSet r u.uid u) r) :
    q ∈ r ∨ ∃ u ∈ us, q = (u.uid, u) := by
  induction us generalizing r with
  | nil => exact Or.inl h
  | cons u us ih =>
    rw [List.foldl_cons] at h
    rcases ih h with h | h
    · rcases mem_mSet h with h | h
      · exact Or.inr ⟨u, List.mem_cons_self _ _, h⟩
      · exact Or.inl h
    · rcases h with ⟨w, hw, hq⟩
      exact Or.inr ⟨w, List.mem_cons_of_mem _ hw, hq⟩

theorem mGet_inQueryFold (users : List User) (batch : List String) (r : UserMap)
    (id : String) (hn : (users.map User.uid).Nodup) :
    mGet (inQueryFold users batch r) id =
      if id ∈ batch ∧ (getUserProfile users id).isSome then getUserProfile users id
      else mGet r id := by
  rw [inQueryFold]
  have hn2 : ((runInQuery users batch).map User.uid).Nodup :=
    ((List.filter_sublist users).map User.uid).nodup hn
  rw [mGet_foldl_setByUid _ _ hn2]
  cases hfind : (runInQuery users batch).find? (fun u => u.uid = id) with
  | some w =>
    have hwmem : w ∈ runInQuery users batch := List.mem_of_find?_eq_some hfind
    have hwid : w.uid = id := by simpa using List.find?_some hfind
    have hwusers : w ∈ users := List.mem_of_mem_filter hwmem
    have hwbatch : batch.contains w.uid := by
      simpa using List.of_mem_filter hwmem
    have hin : id ∈ batch := by
      rw [← hwid]
      simpa using hwbatch
    rw [if_pos ⟨hin, getUserProfile_isSome_of hwusers hwid⟩,
      getUserProfile_eq_some_of_mem hn hwusers hwid]
  | none =>
    rw [List.find?_eq_none] at hfind
    rw [if_neg ?_]
    rintro ⟨hin, hsome⟩
    obtain ⟨w, hw⟩ := Option.isSome_iff_exists.mp hsome
    have hwmem : w ∈ users := List.mem_of_find?_eq_some hw
    have hwid : w.uid = id := by simpa using List.find?_some hw
    have hwfilter : w ∈ runInQuery users batch := by
      rw [runInQuery, List.mem_filter]
      exact ⟨hwmem, by simpa [hwid] using hin⟩
    exact hfind w hwfilter (by simpa using hwid)

theorem mGet_chunksFold (users : List User) (chs : List (List String)) (r : UserMap)
    (id : String) (hn : (users.map User.uid).Nodup) :
    mGet (chs.foldl (fun r batch => inQueryFold users batch r) r) id =
      if id ∈ chs.flatten ∧ (getUserProfile users id).isSome then getUserProfile users id
      else mGet r id := by
  induction chs generalizing r with
  | nil => simp
  | cons ch chs ih =>
    rw [List.foldl_cons, ih, mGet_inQueryFold _ _ _ _ hn]
    by_cases hsome : (getUserProfile users id).isSome
    · by_cases hch : id ∈ ch <;> by_cases hchs : id ∈ chs.flatten <;>
        simp [List.flatten_cons, hch, hchs, hsome]
    · simp [hsome]

theorem mGet_batchGetUsers (users : List User) (uids : List String) (id : String)
    (hn : (users.map User.uid).Nodup) :
    mGet (batchGetUsers users uids) id =
      if id ∈ uids ∧ (getUserProfile users id).isSome then getUserProfile users id
      else none := by
  rw [batchGetUsers, mGet_chunksFold _ _ _ _ hn, flatten_chunksOf10]
  rfl

theorem keys_batchGetUsers_nodup {users : List User} {uids : List String} :
    ((batchGetUsers users uids).map Prod.fst).Nodup := by
  rw [batchGetUsers]
  generalize chunksOf10 uids = chs
  have : (([] : UserMap).map Prod.fst).Nodup := List.nodup_nil
  generalize ([] : UserMap) = r at this ⊢
  induction chs generalizing r with
  | nil => exact this
  | cons ch chs ih => exact ih _ (keys_foldl_setByUid_nodup this)

theorem mem_batchGetUsers {users : List User} {uids : List String} {q : String × User}
    (h : q ∈ batchGetUsers users uids) : ∃ u ∈ users, q = (u.uid, u) := by
  rw [batchGetUsers] at h
  have haux : ∀ (chs : List (List String)) (r : UserMap),
      q ∈ chs.foldl (fun r batch => inQueryFold users batch r) r →
      q ∈ r ∨ ∃ u ∈ users, q = (u.uid, u) := by
    intro chs
    induction chs with
    | nil => exact fun r h => Or.inl h
    | cons ch chs ih =>
      intro r h
      rw [List.foldl_cons] at h
      rcases ih _ h with h | h
      · rcases mem_foldl_setByUid h with h | h
        · exact Or.inl h
        · rcases h with ⟨u, hu, hq⟩
          exact Or.inr ⟨u, List.mem_of_mem_filter hu, hq⟩
      · exact Or.inr h
  rcases haux _ _ h with h | h
  · simp at h
  · exact h

/-! ### getUsers lemmas -/

theorem getUsersSplit_snd_aux (now : Nat) (c : Cache) (uids : List String) :
    ∀ acc : UserMap × List String,
      (uids.foldl (getUsersStep now c) acc).2 =
        acc.2 ++ uids.filter (fun id => (cacheFresh now c id).isNone) := by
  induction uids with
  | nil => intro acc; simp
  | cons uid uids ih =>
    intro acc
    rw [List.foldl_cons, ih, List.filter_cons]
    cases hm : mGet c uid with
    | some e =>
      by_cases hfr : now - e.timestamp < CACHE_TTL
      · have hfresh : (cacheFresh now c uid).isNone = false := by
          simp [cacheFresh, hm, hfr]
        rw [hfresh]
        simp [getUsersStep, hm, hfr]
      · have hfresh : (cacheFresh now c uid).isNone = true := by
          simp [cacheFresh, hm, hfr]
        rw [hfresh]
        simp [getUsersStep, hm, hfr]
    | none =>
      have hfresh : (cacheFresh now c uid).isNone = true := by simp [cacheFresh, hm]
      rw [hfresh]
      simp [getUsersStep, hm]

theorem getUsersSplit_snd (now : Nat) (c : Cache) (uids : List String) :
    (getUsersSplit now c uids).2 =
      uids.filter (fun id => (cacheFresh now c id).isNone) := by
  rw [getUsersSplit, getUsersSplit_snd_aux]
  rfl

theorem getUsersSplit_fst_aux (now : Nat) (c : Cache) (uids : List String)
    (id : String) : ∀ acc : UserMap × List String,
      mGet (uids.foldl (getUsersStep now c) acc).1 id =
        if id ∈ uids ∧ (cacheFresh now c id).isSome then cacheFresh now c id
        else mGet acc.1 id := by
  induction uids with
  | nil => intro acc; simp
  | cons uid uids ih =>
    intro acc
    rw [List.foldl_cons, ih]
    by_cases hid : id = uid
    · subst hid
      cases hm : mGet c id with
      | some e =>
        by_cases hfr : now - e.timestamp < CACHE_TTL
        · have hcf : cacheFresh now c id = some e.user := by simp [cacheFresh, hm, hfr]
          by_cases hmem : id ∈ uids
          · simp [getUsersStep, hm, hfr, hcf, hmem]
          · simp [getUsersStep, hm, hfr, hcf, hmem, mGet_mSet]
        · have hcf : cacheFresh now c id = none := by simp [cacheFresh, hm, hfr]
          simp [getUsersStep, hm, hfr, hcf]
      | none =>
        have hcf : cacheFresh now c id = none := by simp [cacheFresh, hm]
        simp [getUsersStep, hm, hcf]
    · have hstep : mGet (getUsersStep now c acc uid).1 id = mGet acc.1 id := by
        rw [getUsersStep]
        cases hm : mGet c uid with
        | some e =>
          by_cases hfr : now - e.timestamp < CACHE_TTL
          · simp [hfr, mGet_mSet, hid]
          · simp [hfr]
        | none => simp
      rw [hstep]
      by_cases hmem : id ∈ uids <;> simp [hid, hmem]

theorem getUsersSplit_fst (now : Nat) (c : Cache) (uids : List String) (id : String) :
    mGet (getUsersSplit now c uids).1 id =
      if id ∈ uids ∧ (cacheFresh now c id).isSome then cacheFresh now c id
      else none := by
  rw [getUsersSplit, getUsersSplit_fst_aux]
  rfl

theorem mGet_eq_none_of_not_mem_keys {α : Type} {r : List (String × α)} {k : String}
    (h : k ∉ r.map Prod.fst) : mGet r k = none := by
  induction r with
  | nil => rfl
  | cons p r ih =>
    rw [List.map_cons] at h
    have hp : ¬ p.1 = k := fun hp => h (List.mem_cons.mpr (Or.inl hp.symm))
    rw [mGet_cons, if_neg hp]
    exact ih (fun hk => h (List.mem_cons_of_mem _ hk))

theorem mGet_foldl_mSetPairs (l : List (String × User)) (r0 : UserMap) (id : String)
    (hn : (l.map Prod.fst).Nodup) :
    mGet (l.foldl (fun r kv => mSet r kv.1 kv.2) r0) id =
      match mGet l id with
      | some v => some v
      | none => mGet r0 id := by
  induction l generalizing r0 with
  | nil => simp [mGet]
  | cons kv l ih =>
    rw [List.map_cons, List.nodup_cons] at hn
    rw [List.foldl_cons, ih _ hn.2]
    by_cases hk : kv.1 = id
    · have hnone : mGet l id = none :=
        mGet_eq_none_of_not_mem_keys (fun hmem => hn.1 (hk ▸ hmem))
      rw [hnone, mGet_cons, if_pos hk, mGet_mSet, if_pos hk.symm]
    · rw [mGet_cons, if_neg hk]
      cases hfind : mGet l id with
      | some v => rfl
      | none => rw [mGet_mSet, if_neg (fun h => hk h.symm)]

theorem mGet_insertAll_of_fresh {now : Nat} {l : List (String × User)} {c : Cache}
    {k : String} {e : CacheEntry} (hk : k ∉ l.map Prod.fst)
    (h : mGet c k = some e) (hfr : now - e.timestamp < CACHE_TTL) :
    mGet (insertAll now l c) k = some e := by
  induction l generalizing c with
  | nil => exact h
  | cons kv l ih =>
    rw [List.map_cons] at hk
    rw [insertAll, List.foldl_cons]
    exact ih (fun hmem => hk (List.mem_cons_of_mem _ hmem))
      (mGet_setUser_of_fresh _ _ (fun hkk => hk (hkk ▸ List.mem_cons_self _ _)) h hfr)

theorem mGet_insertAll_of_mem {now : Nat} {l : List (String × User)} {c : Cache}
    (hn : (l.map Prod.fst).Nodup) :
    ∀ kv ∈ l, mGet (insertAll now l c) kv.1 = some ⟨kv.2, now⟩ := by
  induction l generalizing c with
  | nil => intro kv h; simp at h
  | cons q l ih =>
    rw [List.map_cons, List.nodup_cons] at hn
    intro kv hkv
    rcases List.mem_cons.mp hkv with rfl | hkv
    · rw [insertAll, List.foldl_cons]
      exact mGet_insertAll_of_fresh hn.1 (mGet_setUser_self now kv.1 kv.2 c)
        (by simpa using ttl_pos)
    · rw [insertAll, List.foldl_cons]
      exact ih hn.2 kv hkv

theorem mem_insertAll {now : Nat} {l : List (String × User)} {c : Cache}
    {q : String × CacheEntry} (h : q ∈ insertAll now l c) :
    q ∈ c ∨ ∃ kv ∈ l, q = (kv.1, ⟨kv.2, now⟩) := by
  induction l generalizing c with
  | nil => exact Or.inl h
  | cons kv l ih =>
    rw [insertAll, List.foldl_cons] at h
    rcases ih h with h | h
    · rcases mem_setUser h with h | h
      · exact Or.inr ⟨kv, List.mem_cons_self _ _, h⟩
      · exact Or.inl h
    · rcases h with ⟨w, hw, hq⟩
      exact Or.inr ⟨w, List.mem_cons_of_mem _ hw, hq⟩

/-- The lookup behaviour of the map returned by `getUsers`: a cache-fresh id
resolves to its cached profile, any other requested id resolves to the store's
profile when one exists, and unrequested or unresolvable ids are absent. -/
theorem getUsers_result_lookup (now : Nat) (users : List User) (c : Cache)
    (uids : List String) (id : String) (hn : (users.map User.uid).Nodup) :
    mGet (getUsers now users c uids).result id =
      if id ∈ uids ∧ (cacheFresh now c id).isSome then cacheFresh now c id
      else if id ∈ uids ∧ (getUserProfile users id).isSome then getUserProfile users id
      else none := by
  rw [getUsers]
  by_cases hempty : (getUsersSplit now c uids).2.isEmpty
  · simp only [hempty, if_pos]
    rw [getUsersSplit_fst]
    have hall : ∀ x ∈ uids, ¬ (cacheFresh now c x).isNone = true := by
      rw [getUsersSplit_snd] at hempty
      have hnil := List.isEmpty_iff.mp hempty
      intro x hx hno
      have : x ∈ uids.filter (fun i => (cacheFresh now c i).isNone) :=
        List.mem_filter.mpr ⟨hx, hno⟩
      rw [hnil] at this
      simp at this
    by_cases hmem : id ∈ uids
    · have hsome : (cacheFresh now c id).isSome := by
        have := hall id hmem
        simpa [Option.isNone_iff_eq_none, ← Option.ne_none_iff_isSome] using this
      simp [hmem, hsome]
    · simp [hmem]
  · simp only [hempty, if_neg, Bool.false_eq_true, not_false_iff]
    rw [mGet_foldl_mSetPairs _ _ _ keys_batchGetUsers_nodup,
      mGet_batchGetUsers _ _ _ hn, getUsersSplit_fst, getUsersSplit_snd]
    by_cases hmem : id ∈ uids
    · by_cases hcf : (cacheFresh now c id).isSome
      · have hnotin : id ∉ uids.filter (fun i => (cacheFresh now c i).isNone) := by
          intro hin
          have hno := (List.mem_filter.mp hin).2
          rw [Option.isNone_iff_eq_none] at hno
          rw [hno] at hcf
          exact Bool.noConfusion hcf
        have hfetch :
            (if id ∈ uids.filter (fun i => (cacheFresh now c i).isNone)
                  ∧ (getUserProfile users id).isSome
              then getUserProfile users id else none) = none :=
          if_neg (fun hc => hnotin hc.1)
        rw [hfetch]
        show (if id ∈ uids ∧ (cacheFresh now c id).isSome
              then cacheFresh now c id else none) = _
        rw [if_pos ⟨hmem, hcf⟩, if_pos ⟨hmem, hcf⟩]
      · have hin : id ∈ uids.filter (fun i => (cacheFresh now c i).isNone) := by
          refine List.mem_filter.mpr ⟨hmem, ?_⟩
          have hnone : cacheFresh now c id = none := Option.not_isSome_iff_eq_none.mp hcf
          rw [hnone]
          rfl
        have hneg2 : ¬ (id ∈ uids ∧ (cacheFresh now c id).isSome) := fun hc => hcf hc.2
        by_cases hgp : (getUserProfile users id).isSome
        · obtain ⟨u, hu⟩ := Option.isSome_iff_exists.mp hgp
          have hfetch :
              (if id ∈ uids.filter (fun i => (cacheFresh now c i).isNone)
                    ∧ (getUserProfile users id).isSome
                then getUserProfile users id else none) = some u := by
            rw [if_pos ⟨hin, hgp⟩, hu]
          rw [hfetch]
          show some u = _
          rw [if_neg hneg2, if_pos ⟨hmem, hgp⟩, hu]
        · have hfetch :
              (if id ∈ uids.filter (fun i => (cacheFresh now c i).isNone)
                    ∧ (getUserProfile users id).isSome
                then getUserProfile users id else none) = none :=
            if_neg (fun hc => hgp hc.2)
          rw [hfetch]
          show (if id ∈ uids ∧ (cacheFresh now c id).isSome
                then cacheFresh now c id else none) = _
          rw [if_neg hneg2, if_neg hneg2, if_neg (fun hc => hgp hc.2)]
    · have hnotin : id ∉ uids.filter (fun i => (cacheFresh now c i).isNone) :=
        fun hin => hmem (List.mem_filter.mp hin).1
      have hCneg : ¬ (id ∈ uids ∧ (cacheFresh now c id).isSome) := fun hc => hmem hc.1
      have hfetch :
          (if id ∈ uids.filter (fun i => (cacheFresh now c i).isNone)
                ∧ (getUserProfile users id).isSome
            then getUserProfile users id else none) = none :=
        if_neg (fun hc => hnotin hc.1)
      rw [hfetch]
      show (if id ∈ uids ∧ (cacheFresh now c id).isSome
            then cacheFresh now c id else none) = _
      rw [if_neg hCneg, if_neg hCneg,
        if_neg (fun hc : id ∈ uids ∧ (getUserProfile users id).isSome => hmem hc.1)]

/-! ### Claim C4 — getUser freshness contract -/

theorem getUserFetch_found {now : Nat} {users : List User} {c : Cache} {uid : String}
    {u : User} (h : getUserProfile users uid = some u) :
    getUserFetch now users c uid = ⟨some u, setUser now uid u c, 1⟩ := by
  rw [getUserFetch, h]

theorem getUserFetch_notFound {now : Nat} {users : List User} {c : Cache} {uid : String}
    (h : getUserProfile users uid = none) :
    getUserFetch now users c uid = ⟨none, c, 1⟩ := by
  rw [getUserFetch, h]

/-- C4: `getUser` returns the cached profile with no store call while the
entry is younger than the TTL; with no entry or a stale one it performs
exactly one store point-lookup, stores a found profile via `setUser` before
returning it, and returns `none` when the store has no such profile. -/
theorem getUser_freshness_spec (now : Nat) (users : List User) (c : Cache)
    (uid : String) :
    (∀ e, mGet c uid = some e → now - e.timestamp < CACHE_TTL →
      getUser now users c uid = ⟨some e.user, c, 0⟩)
    ∧ ((∀ e, mGet c uid = some e → CACHE_TTL ≤ now - e.timestamp) →
      (getUser now users c uid).storeCalls = 1
      ∧ (∀ u, getUserProfile users uid = some u →
          getUser now users c uid = ⟨some u, setUser now uid u c, 1⟩)
      ∧ (getUserProfile users uid = none →
          getUser now users c uid = ⟨none, c, 1⟩)) := by
  constructor
  · intro e he hfr
    simp only [getUser, he]
    rw [if_pos hfr]
  · intro hstale
    have hfetch : getUser now users c uid = getUserFetch now users c uid := by
      cases he : mGet c uid with
      | some e =>
        simp only [getUser, he]
        rw [if_neg (Nat.not_lt.mpr (hstale e he))]
      | none => simp only [getUser, he]
    refine ⟨?_, ?_, ?_⟩
    · rw [hfetch, getUserFetch]
      cases getUserProfile users uid <;> rfl
    · intro u hu
      rw [hfetch, getUserFetch_found hu]
    · intro hu
      rw [hfetch, getUserFetch_notFound hu]

def w4user : User := ⟨"a", "a@x", "A", "ap", none, 0, 0⟩

def w4cache : Cache := [("a", ⟨w4user, 5⟩)]

theorem getUser_freshness_spec_witness :
    getUser 10 [] w4cache "a" = ⟨some w4user, w4cache, 0⟩ :=
  (getUser_freshness_spec 10 [] w4cache "a").1 ⟨w4user, 5⟩ (by decide) (by decide)

/-! ### Claim C10 — absence is never cached (corrected) -/

def ghostUser : User := ⟨"g", "g@x", "Ghost", "gp", none, 0, 0⟩

/-- C10 counterexample: an id can have no backing profile in the store while a
fresh cache entry for it still exists (the profile was deleted after being
cached); `getUser` then returns the cached profile, not `null`.  This refutes
the claim as universally stated. -/
theorem getUser_serves_fresh_entry_despite_absent_profile :
    getUserProfile [] "g" = none
    ∧ (getUser 0 [] [("g", ⟨ghostUser, 0⟩)] "g").user = some ghostUser := by
  decide

/-- C10 (amended): for every id with no FRESH cache entry and no backing
profile in the store, `getUser` returns `none`, performs one store lookup,
and leaves the cache map unchanged — so every later `getUser` call (at the
same or a later time) hits the store again, and every later `getUsers` call
whose id list contains the id places it on the uncached list, carries it in
one of the issued store batch-lookup queries (performing a store lookup for
it again), and still returns it absent; `getUsers` never inserts a cache
entry for an id the store queries did not resolve. -/
theorem absence_not_cached (now : Nat) (users : List User) (c : Cache) (uid : String)
    (hnofresh : cacheFresh now c uid = none)
    (hnostore : getUserProfile users uid = none) :
    getUser now users c uid = ⟨none, c, 1⟩
    ∧ (∀ t, now ≤ t → (getUser t users c uid).storeCalls = 1)
    ∧ (∀ t (uids : List String), now ≤ t → uid ∈ uids →
        uid ∈ (getUsersSplit t c uids).2
        ∧ uid ∈ (chunksOf10 (getUsersSplit t c uids).2).flatten
        ∧ mGet (getUsers t users c uids).result uid = none)
    ∧ (∀ (uids : List String) (id : String) (e : CacheEntry),
        getUserProfile users id = none →
        (id, e) ∈ (getUsers now users c uids).cache → (id, e) ∈ c) := by
  have hstale : ∀ t, now ≤ t → ∀ e, mGet c uid = some e → CACHE_TTL ≤ t - e.timestamp := by
    intro t ht e he
    simp only [cacheFresh, he] at hnofresh
    by_cases hfr : now - e.timestamp < CACHE_TTL
    · rw [if_pos hfr] at hnofresh; cases hnofresh
    · have h1 : CACHE_TTL ≤ now - e.timestamp := Nat.not_lt.mp hfr
      omega
  have hcf : ∀ t, now ≤ t → cacheFresh t c uid = none := by
    intro t ht
    cases hm : mGet c uid with
    | some e =>
      simp only [cacheFresh, hm]
      rw [if_neg (Nat.not_lt.mpr (hstale t ht e hm))]
    | none => simp only [cacheFresh, hm]
  refine ⟨?_, ?_, ?_, ?_⟩
  · exact (((getUser_freshness_spec now users c uid).2 (hstale now le_rfl)).2.2 hnostore)
  · intro t ht
    exact ((getUser_freshness_spec t users c uid).2 (hstale t ht)).1
  · intro t uids ht huids
    have hsplit2 : uid ∈ (getUsersSplit t c uids).2 := by
      rw [getUsersSplit_snd]
      refine List.mem_filter.mpr ⟨huids, ?_⟩
      rw [hcf t ht]
      rfl
    refine ⟨hsplit2, ?_, ?_⟩
    · rw [flatten_chunksOf10]
      exact hsplit2
    · have hfetchnone :
          mGet (batchGetUsers users (getUsersSplit t c uids).2) uid = none := by
        cases hfv : mGet (batchGetUsers users (getUsersSplit t c uids).2) uid with
        | none => rfl
        | some v =>
          exfalso
          rcases mem_batchGetUsers (mem_of_mGet_eq_some hfv) with ⟨u, hu, hq⟩
          have hq1 : uid = u.uid := congrArg Prod.fst hq
          have hsome := getUserProfile_isSome_of hu hq1.symm
          rw [hnostore] at hsome
          cases hsome
      by_cases hempty : (getUsersSplit t c uids).2.isEmpty
      · exfalso
        rw [List.isEmpty_iff.mp hempty] at hsplit2
        exact List.not_mem_nil uid hsplit2
      · have hres : (getUsers t users c uids).result =
            (batchGetUsers users (getUsersSplit t c uids).2).foldl
              (fun r kv => mSet r kv.1 kv.2) (getUsersSplit t c uids).1 := by
          rw [getUsers, if_neg hempty]
        rw [hres, mGet_foldl_mSetPairs _ _ _ keys_batchGetUsers_nodup, hfetchnone,
          getUsersSplit_fst, hcf t ht,
          if_neg (fun hc : uid ∈ uids ∧ (none : Option User).isSome = true =>
            Bool.noConfusion hc.2)]
  · intro uids id e hid hmem
    rw [getUsers] at hmem
    by_cases hempty : (getUsersSplit now c uids).2.isEmpty
    · rw [if_pos hempty] at hmem
      exact hmem
    · rw [if_neg hempty] at hmem
      rcases mem_insertAll hmem with h | h
      · exact h
      · rcases h with ⟨kv, hkv, hq⟩
        rcases mem_batchGetUsers hkv with ⟨u, hu, rfl⟩
        have hq1 : id = u.uid := congrArg Prod.fst hq
        have hid2 : u.uid = id := hq1.symm
        have := getUserProfile_isSome_of hu hid2
        rw [hid] at this
        cases this

def w10cache : Cache := [("s", ⟨ghostUser, 0⟩)]

theorem absence_not_cached_witness :
    getUser 600001 [] w10cache "s" = ⟨none, w10cache, 1⟩
    ∧ "s" ∈ (getUsersSplit 600001 w10cache ["s"]).2
    ∧ mGet (getUsers 600001 [] w10cache ["s"]).result "s" = none := by
  have h := absence_not_cached 600001 [] w10cache "s" (by decide) (by decide)
  have h3 := h.2.2.1 600001 ["s"] le_rfl (by decide)
  exact ⟨h.1, h3.1, h3.2.2⟩

/-! ### Claim C3 — invalidation happens before the detached repair finishes -/

/-- C3: at the instant `updateUserProfile` resolves — with the detached
`updateUserContentReferences` work still pending — the cache entry for the
updated user is already gone, and a refetch through `getUser` goes to the
store, which already holds the new profile value. -/
theorem invalidation_precedes_repair (now : Nat) (uid : String)
    (d : ProfileUpdateData) (w : World) :
    mGet (updateUserProfileReturn now uid d w).world.cache uid = none
    ∧ (getUser now (updateUserProfileReturn now uid d w).world.users
        (updateUserProfileReturn now uid d w).world.cache uid).user =
      getUserProfile (updateUserProfileReturn now uid d w).world.users uid := by
  have hdel : mGet (updateUserProfileReturn now uid d w).world.cache uid = none :=
    mGet_mDelete_self w.cache uid
  refine ⟨hdel, ?_⟩
  rw [getUser, hdel]
  cases hg : getUserProfile (updateUserProfileReturn now uid d w).world.users uid with
  | some u => rw [getUserFetch_found hg]
  | none => rw [getUserFetch_notFound hg]

/-! ### Claim C9 — repair failures are caught, logged, and never propagate -/

/-- C9: when the detached repair rejects (store adapter uninitialized, or a
batch commit fails), the `.catch` boundary logs the error; the repair is
attempted exactly once and not retried; the profile write and the cache
invalidation performed by `updateUserProfile` are unaffected, so the call
still counts as resolved with the new profile in the store and the cache
entry gone. -/
theorem repair_failure_swallowed (dbInit : Bool) (commitOk : Nat → Bool) (now : Nat)
    (uid : String) (d : ProfileUpdateData) (w : World)
    (uid2 name photo e : String)
    (hpend : (updateUserProfileReturn now uid d w).pending = some (uid2, name, photo))
    (herr : (updateUserContentReferences dbInit commitOk uid2 name photo now
        (updateUserProfileReturn now uid d w).world.posts
        (updateUserProfileReturn now uid d w).world.cache).err = some e) :
    (updateUserProfileFull dbInit commitOk now uid d w).log = w.log ++ [repairErrorLog e]
    ∧ (updateUserProfileFull dbInit commitOk now uid d w).repairAttempts =
        w.repairAttempts + 1
    ∧ mGet (updateUserProfileFull dbInit commitOk now uid d w).cache uid = none
    ∧ (updateUserProfileFull dbInit commitOk now uid d w).users =
        (updateUserProfileReturn now uid d w).world.users := by
  have hrun : updateUserProfileFull dbInit commitOk now uid d w =
      { (updateUserProfileReturn now uid d w).world with
        posts := (updateUserContentReferences dbInit commitOk uid2 name photo now
            (updateUserProfileReturn now uid d w).world.posts
            (updateUserProfileReturn now uid d w).world.cache).posts
        log := (updateUserProfileReturn now uid d w).world.log ++ [repairErrorLog e]
        repairAttempts := (updateUserProfileReturn now uid d w).world.repairAttempts + 1 } := by
    rw [updateUserProfileFull, runPendingRepair, hpend]
    simp only [herr]
  have hcache : (updateUserProfileReturn now uid d w).world.cache =
      invalidateUser uid w.cache := rfl
  refine ⟨?_, ?_, ?_, ?_⟩
  · rw [hrun]
    try rfl
  · rw [hrun]
    try rfl
  · rw [hrun]
    exact mGet_mDelete_self w.cache uid
  · rw [hrun]
    try rfl

def w9user : User := ⟨"u", "u@x", "Old", "op", none, 0, 0⟩

def w9post : Post := ⟨"p1", "u", "Old", "op", "x", none, [], some [], 0, 0⟩

def w9world : World := ⟨[w9user], [w9post], [], [], 0⟩

theorem repair_failure_swallowed_witness :
    (updateUserProfileFull true (fun _ => false) 50 "u" ⟨some "New", none, none⟩ w9world).log =
      [repairErrorLog "batch commit failed"]
    ∧ (updateUserProfileFull true (fun _ => false) 50 "u"
        ⟨some "New", none, none⟩ w9world).repairAttempts = 1
    ∧ mGet (updateUserProfileFull true (fun _ => false) 50 "u"
        ⟨some "New", none, none⟩ w9world).cache "u" = none := by
  have h := repair_failure_swallowed true (fun _ => false) 50 "u"
    ⟨some "New", none, none⟩ w9world "u" "New" "op" "batch commit failed"
    (by decide) (by decide)
  exact ⟨h.1, h.2.1, h.2.2.1⟩

/-! ### Claim C1 — repair misses comments on other authors' posts (code bug) -/

def alice : User := ⟨"u1", "a@x", "OldName", "oldAvatar", none, 0, 0⟩

def bob : User := ⟨"u2", "b@x", "Bob", "bobAvatar", none, 0, 0⟩

def aliceCommentOnP3 : Comment := ⟨"c1", "p3", "u1", "OldName", "oldAvatar", "hi", 0⟩

def bobCommentOnP1 : Comment := ⟨"c2", "p1", "u2", "Bob", "bobAvatar", "yo", 0⟩

def demoP1 : Post := ⟨"p1", "u1", "OldName", "oldAvatar", "post1", none, [], some [bobCommentOnP1], 0, 0⟩

def demoP2 : Post := ⟨"p2", "u1", "OldName", "oldAvatar", "post2", none, [], some [], 0, 0⟩

def demoP3 : Post := ⟨"p3", "u2", "Bob", "bobAvatar", "post3", none, [], some [aliceCommentOnP3], 0, 0⟩

def demoWorld : World := ⟨[alice, bob], [demoP1, demoP2, demoP3], [], [], 0⟩

def findPost (ps : List Post) (pid : String) : Option Post :=
  ps.find? (fun p => p.id = pid)

/-- C1 (code bug): after `updateUserProfile` for user `u1` (renaming
`OldName` to `NewName`) and its repair complete successfully, the posts
authored by `u1` carry the new author fields (a comment by another author
inside them untouched), but the post `p3` authored by `u2` — which contains
`u1`'s comment `c1` — is left byte-for-byte unchanged: the repair's query
`where("authorId", "==", uid)` never selects it, so `c1` keeps the old
denormalized name in the store, contradicting the claim (and the cache
README's promise to update all of the user's comments). -/
theorem repair_skips_comment_on_foreign_post :
    (findPost (updateUserProfileFull true (fun _ => true) 100 "u1"
        ⟨some "NewName", some "newAvatar", none⟩ demoWorld).posts "p1").map Post.authorName
      = some "NewName"
    ∧ (findPost (updateUserProfileFull true (fun _ => true) 100 "u1"
        ⟨some "NewName", some "newAvatar", none⟩ demoWorld).posts "p1").map Post.comments
      = some (some [bobCommentOnP1])
    ∧ (findPost (updateUserProfileFull true (fun _ => true) 100 "u1"
        ⟨some "NewName", some "newAvatar", none⟩ demoWorld).posts "p2").map Post.authorName
      = some "NewName"
    ∧ findPost (updateUserProfileFull true (fun _ => true) 100 "u1"
        ⟨some "NewName", some "newAvatar", none⟩ demoWorld).posts "p3"
      = some demoP3
    ∧ aliceCommentOnP3.authorName = "OldName"
    ∧ aliceCommentOnP3.authorId = "u1" := by
  decide

/-! ### Claim C2 — comment updates are not counted and batches overflow (code bug) -/

def c2comment (i : Nat) : Comment :=
  ⟨"c" ++ toString i, "p" ++ toString i, "v", "V", "VP", "t", 0⟩

def c2post (i : Nat) : Post :=
  ⟨"p" ++ toString i, "u", "Old", "OldP", "x", none, [], some [c2comment i], 0, 0⟩

def c2posts : List Post := (List.range 251).map c2post

/-- C2 (code bug): for 251 posts by the updated user, each carrying a
comments array, the loop stages 502 batch operations but counts only the 251
post-author updates (`batchOperations` never counts the comments update), so
no mid-loop flush triggers and the single committed batch holds 502
operations — exceeding the 500-operation Firestore limit the code itself
names; a fresh batch is never created. -/
theorem repair_batch_overflow :
    (updateUserContentReferencesTrace "u" "N" "P" 0 c2posts).commits.map List.length = [502]
    ∧ (updateUserContentReferencesTrace "u" "N" "P" 0 c2posts).batchOperations = 251
    ∧ (updateUserContentReferencesTrace "u" "N" "P" 0 c2posts).batch.length = 502
    ∧ 500 < 502 := by
  decide

/-! ### Claim C5 — getUsers batch correctness -/

/-- C5: for any request list and any cache state coherent with the store, the
map returned by `getUsers` has exactly the requested ids that resolve to an
existing profile (missing ids are simply absent, not errors), with the same
result whether ids are cache-fresh, cache-cold, or mixed; and every profile
fetched from the store during the call is inserted into the cache with the
current timestamp. -/
theorem getUsers_batch_correctness (now : Nat) (users : List User) (c : Cache)
    (uids : List String)
    (husers : (users.map User.uid).Nodup)
    (hcoh : ∀ id e, mGet c id = some e → now - e.timestamp < CACHE_TTL →
      getUserProfile users id = some e.user) :
    (∀ id, mGet (getUsers now users c uids).result id =
      if id ∈ uids then getUserProfile users id else none)
    ∧ (∀ kv ∈ batchGetUsers users (getUsersSplit now c uids).2,
        mGet (getUsers now users c uids).cache kv.1 = some ⟨kv.2, now⟩) := by
  constructor
  · intro id
    rw [getUsers_result_lookup _ _ _ _ _ husers]
    by_cases hmem : id ∈ uids
    · by_cases hcf : (cacheFresh now c id).isSome
      · rw [if_pos ⟨hmem, hcf⟩, if_pos hmem]
        cases hm : mGet c id with
        | some e =>
          by_cases hfr : now - e.timestamp < CACHE_TTL
          · simp only [cacheFresh, hm]
            rw [if_pos hfr, hcoh id e hm hfr]
          · exfalso
            have : cacheFresh now c id = none := by
              simp only [cacheFresh, hm]
              rw [if_neg hfr]
            rw [this] at hcf
            exact Bool.noConfusion hcf
        | none =>
          exfalso
          have : cacheFresh now c id = none := by simp only [cacheFresh, hm]
          rw [this] at hcf
          exact Bool.noConfusion hcf
      · rw [if_neg (fun hc => hcf hc.2), if_pos hmem]
        by_cases hgp : (getUserProfile users id).isSome
        · rw [if_pos ⟨hmem, hgp⟩]
        · rw [if_neg (fun hc => hgp hc.2)]
          exact (Option.not_isSome_iff_eq_none.mp hgp).symm
    · rw [if_neg (fun hc => hmem hc.1),
        if_neg (fun hc : id ∈ uids ∧ (getUserProfile users id).isSome => hmem hc.1),
        if_neg hmem]
  · intro kv hkv
    by_cases hempty : (getUsersSplit now c uids).2.isEmpty
    · exfalso
      rw [List.isEmpty_iff.mp hempty] at hkv
      have hnil : batchGetUsers users [] = [] := by
        rw [batchGetUsers, chunksOf10_nil]
        rfl
      rw [hnil] at hkv
      exact List.not_mem_nil kv hkv
    · have hcache : (getUsers now users c uids).cache =
          insertAll now (batchGetUsers users (getUsersSplit now c uids).2) c := by
        rw [getUsers, if_neg hempty]
      rw [hcache]
      exact mGet_insertAll_of_mem keys_batchGetUsers_nodup kv hkv

def w5user : User := ⟨"u1", "u@x", "U", "up", none, 0, 0⟩

theorem getUsers_batch_correctness_witness :
    mGet (getUsers 0 [w5user] [] ["u1", "zz"]).result "u1" = some w5user
    ∧ mGet (getUsers 0 [w5user] [] ["u1", "zz"]).result "zz" = none := by
  have h := getUsers_batch_correctness 0 [w5user] [] ["u1", "zz"] (by decide)
    (by intro id e he hfr; simp [mGet] at he)
  exact ⟨(h.1 "u1").trans (by decide), (h.1 "zz").trans (by decide)⟩

/-! ### Claim C6 — 23 cold ids chunk into queries of 10, 10, 3 -/

theorem chunksOf10_length23 (l : List String) (hlen : l.length = 23) :
    (chunksOf10 l).map List.length = [10, 10, 3] := by
  have h1 : l ≠ [] := by
    intro h
    rw [h] at hlen
    cases hlen
  have hd1 : (l.drop 10).length = 13 := by rw [List.length_drop, hlen]
  have h2 : l.drop 10 ≠ [] := by
    intro h
    rw [h] at hd1
    cases hd1
  have hd2 : ((l.drop 10).drop 10).length = 3 := by rw [List.length_drop, hd1]
  have h3 : (l.drop 10).drop 10 ≠ [] := by
    intro h
    rw [h] at hd2
    cases hd2
  have hd3 : (((l.drop 10).drop 10).drop 10).length = 0 := by rw [List.length_drop, hd2]
  rw [chunksOf10_of_ne h1, chunksOf10_of_ne h2, chunksOf10_of_ne h3,
    List.length_eq_zero.mp hd3, chunksOf10_nil]
  simp [List.length_take, hlen, hd1, hd2]

/-- C6: with 23 requested ids none of which is cache-fresh, the uncached list
is the whole request, it is chunked into exactly 3 store `in`-queries of
sizes 10, 10 and 3, and the union of the query results (the `batchGetUsers`
map) is pointwise exactly the map `getUsers` returns. -/
theorem getUsers_chunking_23 (now : Nat) (users : List User) (c : Cache)
    (uids : List String)
    (husers : (users.map User.uid).Nodup)
    (hlen : uids.length = 23)
    (hcold : ∀ id ∈ uids, cacheFresh now c id = none) :
    (getUsersSplit now c uids).2 = uids
    ∧ (chunksOf10 (getUsersSplit now c uids).2).length = 3
    ∧ (chunksOf10 (getUsersSplit now c uids).2).map List.length = [10, 10, 3]
    ∧ (∀ id, mGet (getUsers now users c uids).result id =
        mGet (batchGetUsers users (getUsersSplit now c uids).2) id) := by
  have hsplit : (getUsersSplit now c uids).2 = uids := by
    rw [getUsersSplit_snd]
    refine List.filter_eq_self.mpr (fun a ha => ?_)
    rw [hcold a ha]
    rfl
  have hchunks : (chunksOf10 (getUsersSplit now c uids).2).map List.length = [10, 10, 3] := by
    rw [hsplit]
    exact chunksOf10_length23 uids hlen
  refine ⟨hsplit, ?_, hchunks, ?_⟩
  · have := congrArg List.length hchunks
    simpa using this
  · intro id
    rw [getUsers_result_lookup _ _ _ _ _ husers, hsplit, mGet_batchGetUsers _ _ _ husers]
    by_cases hmem : id ∈ uids
    · have hcfns : ¬ (cacheFresh now c id).isSome := by
        rw [hcold id hmem]
        exact fun h => Bool.noConfusion h
      rw [if_neg (fun hc => hcfns hc.2)]
    · rw [if_neg (fun hc => hmem hc.1),
        if_neg (fun hc : id ∈ uids ∧ (getUserProfile users id).isSome => hmem hc.1)]

def c6ids : List String := (List.range 23).map (fun n => "u" ++ toString n)

theorem getUsers_chunking_23_witness :
    (chunksOf10 (getUsersSplit 0 [] c6ids).2).map List.length = [10, 10, 3] :=
  (getUsers_chunking_23 0 [] [] c6ids (by decide) (by decide)
    (fun _ _ => rfl)).2.2.1

/-! ### Claim C7 — capacity is a soft bound; cleanup never drops fresh entries -/

/-- C7: inserting any number of distinct, previously absent keys into a cache
whose entries are all fresh never throws (the operation is total), never
evicts a fresh entry (every pre-existing entry and every just-inserted entry
is still retrievable afterwards, since the capacity-triggered cleanup removes
only entries aged at least the TTL), and grows the map size by exactly the
number of inserts — so with more than 1000 fresh inserts the map exceeds
`MAX_CACHE_SIZE`: the bound is soft. -/
theorem setUser_churn_safety (now : Nat) (c : Cache) (l : List (String × User))
    (hfresh : ∀ p ∈ c, now - p.2.timestamp < CACHE_TTL)
    (hnodup : (l.map Prod.fst).Nodup)
    (hnew : ∀ kv ∈ l, mGet c kv.1 = none) :
    (∀ kv ∈ l, mGet (insertAll now l c) kv.1 = some ⟨kv.2, now⟩)
    ∧ (∀ k e, mGet c k = some e → mGet (insertAll now l c) k = some e)
    ∧ (insertAll now l c).length = c.length + l.length := by
  have hstruct := insertAll_eq_append hfresh hnodup hnew
  refine ⟨?_, ?_, ?_⟩
  · intro kv hkv
    rw [hstruct, mGet_append, hnew kv hkv]
    have hk : ((l.map (fun kv => (kv.1, (⟨kv.2, now⟩ : CacheEntry)))).map Prod.fst).Nodup := by
      rw [List.map_map]
      exact hnodup
    have hmem : (kv.1, (⟨kv.2, now⟩ : CacheEntry)) ∈
        l.map (fun kv => (kv.1, (⟨kv.2, now⟩ : CacheEntry))) :=
      List.mem_map_of_mem _ hkv
    have := mGet_of_nodup_mem hk hmem
    simpa using this
  · intro k e he
    rw [hstruct, mGet_append, he]
    rfl
  · rw [hstruct, List.length_append, List.length_map]

def churnKey (n : Nat) : String := String.mk (List.replicate n 'a')

theorem churnKey_injective : Function.Injective churnKey := by
  intro a b h
  have hdata : List.replicate a 'a' = List.replicate b 'a' := congrArg String.data h
  have := congrArg List.length hdata
  simpa using this

def churnUser : User := ⟨"x", "x@x", "X", "xp", none, 0, 0⟩

def churnList : List (String × User) :=
  (List.range 1001).map (fun n => (churnKey n, churnUser))

theorem setUser_churn_safety_witness :
    (insertAll 7 churnList []).length = 1001 ∧ 1000 < 1001 := by
  have hnodup : (churnList.map Prod.fst).Nodup := by
    rw [churnList, List.map_map]
    exact List.Nodup.map churnKey_injective (List.nodup_range 1001)
  have h := setUser_churn_safety 7 [] churnList
    (fun p hp => absurd hp (List.not_mem_nil p)) hnodup (fun kv _ => rfl)
  refine ⟨?_, by decide⟩
  rw [h.2.2]
  simp [churnList]

/-! ### Claim C8 — enrichment is non-mutating on non-author fields -/

/-- C8: `enrichPostsWithUserData` returns one output post per input post,
each equal to `enrichPost` of the input under the map resolved by the single
`getUsers` call; `enrichPost` preserves every non-author field (id, authorId,
content, image, likes, timestamps, and the comments' ids, authors, contents
and order), overwrites `authorName`/`authorPhotoURL` with the resolved
profile's display name/avatar exactly when the author id is a key of the
resolved map, and leaves them as persisted otherwise — likewise for every
nested comment.  The function performs no store writes (its output carries
only the rewritten posts and the cache the lookup left behind). -/
theorem enrich_frame_spec (now : Nat) (users : List User) (c : Cache)
    (posts : List Post) :
    (enrichPostsWithUserData now users c posts).1.length = posts.length
    ∧ (∀ i (hi : i < posts.length)
        (ho : i < (enrichPostsWithUserData now users c posts).1.length),
        (enrichPostsWithUserData now users c posts).1.get ⟨i, ho⟩ =
          enrichPost (getUsers now users c (collectAuthorIds posts)).result
            (posts.get ⟨i, hi⟩))
    ∧ (∀ (m : UserMap) (p : Post),
        (enrichPost m p).id = p.id
        ∧ (enrichPost m p).authorId = p.authorId
        ∧ (enrichPost m p).content = p.content
        ∧ (enrichPost m p).imageURL = p.imageURL
        ∧ (enrichPost m p).likes = p.likes
        ∧ (enrichPost m p).createdAt = p.createdAt
        ∧ (enrichPost m p).updatedAt = p.updatedAt
        ∧ (enrichPost m p).authorName =
            (match mGet m p.authorId with
             | some u => u.displayName
             | none => p.authorName)
        ∧ (enrichPost m p).authorPhotoURL =
            (match mGet m p.authorId with
             | some u => u.photoURL
             | none => p.authorPhotoURL)
        ∧ (match p.comments with
           | none => (enrichPost m p).comments = none
           | some cs => (enrichPost m p).comments = some (cs.map (enrichComment m))))
    ∧ (∀ (m : UserMap) (cm : Comment),
        (enrichComment m cm).id = cm.id
        ∧ (enrichComment m cm).postId = cm.postId
        ∧ (enrichComment m cm).authorId = cm.authorId
        ∧ (enrichComment m cm).content = cm.content
        ∧ (enrichComment m cm).createdAt = cm.createdAt
        ∧ (enrichComment m cm).authorName =
            (match mGet m cm.authorId with
             | some u => u.displayName
             | none => cm.authorName)
        ∧ (enrichComment m cm).authorPhotoURL =
            (match mGet m cm.authorId with
             | some u => u.photoURL
             | none => cm.authorPhotoURL)) := by
  refine ⟨?_, ?_, ?_, ?_⟩
  · simp [enrichPostsWithUserData]
  · intro i hi ho
    simp [enrichPostsWithUserData, List.get_eq_getElem, List.getElem_map]
  · intro m p
    cases hm : mGet m p.authorId with
    | some u =>
      cases hc : p.comments with
      | some cs => simp [enrichPost, hm, hc]
      | none => simp [enrichPost, hm, hc]
    | none =>
      cases hc : p.comments with
      | some cs => simp [enrichPost, hm, hc]
      | none => simp [enrichPost, hm, hc]
  · intro m cm
    cases hm : mGet m cm.authorId with
    | some u => simp [enrichComment, hm]
    | none => simp [enrichComment, hm]

def c8user : User := ⟨"e1", "e@x", "Fresh", "fp", none, 0, 0⟩

def c8comment : Comment := ⟨"cc", "pp", "gone", "GoneName", "gp", "t", 0⟩

def c8post : Post := ⟨"pp", "e1", "Stale", "sp", "x", none, [], some [c8comment], 3, 4⟩

theorem c8len : 0 < (enrichPostsWithUserData 0 [c8user] [] [c8post]).1.length := by
  decide

theorem enrich_frame_spec_witness :
    (enrichPostsWithUserData 0 [c8user] [] [c8post]).1.get ⟨0, c8len⟩ =
      enrichPost (getUsers 0 [c8user] [] (collectAuthorIds [c8post])).result c8post :=
  (enrich_frame_spec 0 [c8user] [] [c8post]).2.1 0 (by decide) c8len

end SocialNetwork
